import Mathlib

/-!
Verification of the FastApi_RAG repository against its natural-language
specification.  The definitions below are a shallow embedding of the
Python sources under `app/`:

* `app/services/query_engine.py` — `QueryEngine.process_response` and
  `QueryEngine.query` (routing between a summary path and a direct path);
* `app/services/document_loader.py` — `load_documents`;
* `app/services/index_creator.py` — `create_index`;
* `app/main.py` — `initialize_rag_system`, `upload_documents` (the
  delete-then-write step), the `/query/` endpoint fallback, and the
  timestamp-stripping used by `/status/`.

External effects (the PDF reader, the FAISS index, the embedding model,
the LLM) are modelled as explicit parameters: the reader is a function
from a filename to the list of extracted text chunks, the index is an
arbitrary type, fallible library calls are `Except` values supplied by
the environment.  Python strings are modelled as `String` / `List Char`;
Python's `str.split()`, `str.replace`, `str.split(sep)`, `str.join`,
substring `in`, and `str.lower()` are each given a faithful executable
counterpart below.
-/

/-- Python `sep.join` on a list of chunks: empty for `[]`, otherwise the
chunks interleaved with `sep`. -/
def joinWith (sep : List Char) : List (List Char) → List Char
  | [] => []
  | [x] => x
  | x :: y :: rest => x ++ sep ++ joinWith sep (y :: rest)

/-- Accumulator loop behind Python `str.split()` (split on whitespace
runs, dropping empty tokens).  `acc` holds the current token reversed. -/
def wordsAux : List Char → List Char → List (List Char)
  | [], acc => if acc.isEmpty then [] else [acc.reverse]
  | c :: cs, acc =>
    if c.isWhitespace then
      if acc.isEmpty then wordsAux cs [] else acc.reverse :: wordsAux cs []
    else wordsAux cs (c :: acc)

/-- Python `' '.join(s.split())`: collapse every whitespace run to a
single space and strip leading/trailing whitespace. -/
def collapseWs (l : List Char) : List Char :=
  joinWith [' '] (wordsAux l [])

/-- Python `s.replace(t, r)` for a single-character pattern `t`. -/
def replaceChar (t : Char) (r : List Char) : List Char → List Char
  | [] => []
  | c :: cs => if c = t then r ++ replaceChar t r cs else c :: replaceChar t r cs

/-- Python `s.split('. ')`: greedy left-to-right split on the two-char
separator, keeping empty pieces.  `acc` holds the current piece reversed. -/
def splitDS : List Char → List Char → List (List Char)
  | [], acc => [acc.reverse]
  | [c], acc => [(c :: acc).reverse]
  | c :: c2 :: cs, acc =>
    if c = '.' ∧ c2 = ' ' then acc.reverse :: splitDS cs []
    else splitDS (c2 :: cs) (c :: acc)

/-- `'. '.join(group) + '.'` — one output paragraph of
`QueryEngine.process_response`. -/
def mkParagraph (g : List (List Char)) : List Char :=
  joinWith ['.', ' '] g ++ ['.']

/-- The paragraph-grouping loop of `QueryEngine.process_response`:
append each sentence to the current group, flush the group as soon as it
holds 3 sentences, and flush any nonempty remainder at the end.  `cur`
holds the current group reversed. -/
def groupSentences : List (List Char) → List (List Char) → List (List Char)
  | [], cur => if cur.isEmpty then [] else [mkParagraph cur.reverse]
  | s :: ss, cur =>
    if 3 ≤ (s :: cur).length then mkParagraph (s :: cur).reverse :: groupSentences ss []
    else groupSentences ss (s :: cur)

/-- `QueryEngine.process_response` on `List Char`: collapse whitespace,
force a space after `.` `!` `?`, collapse again, split on `'. '`, group
sentences 3 per paragraph, and join paragraphs with a blank line. -/
def processList (l : List Char) : List Char :=
  let c1 := collapseWs l
  let c2 := replaceChar '.' ['.', ' '] c1
  let c3 := replaceChar '!' ['!', ' '] c2
  let c4 := replaceChar '?' ['?', ' '] c3
  let c5 := collapseWs c4
  joinWith ['\n', '\n'] (groupSentences (splitDS c5 []) [])

/-- `QueryEngine.process_response` (query_engine.py, lines 16–43). -/
def process_response (s : String) : String :=
  String.mk (processList s.data)

/-- ASCII lowercasing of one character, as Python `str.lower()` acts on
the ASCII range (all strings in the claims are ASCII). -/
def lowerChar (c : Char) : Char :=
  if 'A' ≤ c ∧ c ≤ 'Z' then Char.ofNat (c.toNat + 32) else c

/-- Python `s.lower()`, as a character list. -/
def lowerList (s : String) : List Char :=
  s.data.map lowerChar

/-- `pat` is a prefix of `s` (helper for the substring test). -/
def leadsWith : List Char → List Char → Bool
  | [], _ => true
  | _ :: _, [] => false
  | p :: ps, c :: cs => p == c && leadsWith ps cs

/-- Python's substring operator `pat in s`: `pat` occurs contiguously in
`s`. -/
def occursIn (pat : List Char) : List Char → Bool
  | [] => leadsWith pat []
  | c :: cs => leadsWith pat (c :: cs) || occursIn pat cs

/-- One document record: text plus the metadata attached by
`load_documents` (document_loader.py, lines 19–23). -/
structure Doc where
  text : String
  file_name : String
  is_latest : Bool

/-- Insert into a list kept sorted by descending `key`, preserving the
relative order of equal keys (the behaviour of Python's stable
`sort(key=..., reverse=True)` / `sorted(..., reverse=True)`). -/
def insertDescBy {α : Type} (key : α → String) (x : α) : List α → List α
  | [] => [x]
  | y :: ys => if key y ≤ key x then x :: y :: ys else y :: insertDescBy key x ys

/-- Python `sorted(l, key=key, reverse=True)`. -/
def sortDescBy {α : Type} (key : α → String) : List α → List α
  | [] => []
  | x :: xs => insertDescBy key x (sortDescBy key xs)

/-- Python `sorted(l, reverse=True)` on names. -/
def sortDesc (l : List String) : List String :=
  sortDescBy id l

/-- The per-file loop body of `load_documents`: every record extracted
from file `f` gets `file_name = f` and `is_latest = (f == first)` where
`first` is the head of the reverse-sorted file list. -/
def loadLoop (first : String) (reader : String → List String) : List String → List Doc
  | [] => []
  | f :: fs =>
    (reader f).map (fun t => { text := t, file_name := f, is_latest := f == first })
      ++ loadLoop first reader fs

/-- `load_documents` (document_loader.py, lines 8–26): glob the PDF
names of the directory (`files`), sort them in reverse order, extract
each file's records via the external `reader`, and tag metadata.  An
empty directory yields `[]`. -/
def load_documents (files : List String) (reader : String → List String) : List Doc :=
  match sortDesc files with
  | [] => []
  | first :: rest => loadLoop first reader (first :: rest)

/-- The fixed keyword list of `QueryEngine.query` (query_engine.py,
line 51). -/
def summary_keywords : List String :=
  ["summary", "summarize", "what is this about", "what is it about"]

/-- `any(word in question.lower() for word in [...])`. -/
def isSummaryRequest (question : String) : Bool :=
  summary_keywords.any (fun w => occursIn w.data (lowerList question))

/-- The fixed internal summary prompt (query_engine.py, lines 64–68). -/
def summary_prompt : String :=
  "Provide a clear and concise summary of the latest document. Focus on the main points and key insights. Format the response in clean paragraphs without bullet points or excessive line breaks."

/-- The fixed apology used when the docstore holds no documents
(query_engine.py, line 72). -/
def apology_text : String :=
  "I couldn't find the latest document to summarize. Please ensure documents are properly uploaded."

/-- What `QueryEngine.query` decides to do before post-processing:
either invoke the underlying retrieval engine with some prompt, or skip
it entirely (the empty-docstore apology). -/
inductive QueryAction where
  | engineQuery (prompt : String)
  | noEngine
deriving DecidableEq

/-- The routing step of `QueryEngine.query` (query_engine.py,
lines 51–74): a summary-classified question sorts the docstore records
by descending `file_name` and queries with the fixed summary prompt if a
latest document exists, otherwise answers without the engine; any other
question is passed through verbatim. -/
def queryPlan (docstore : List Doc) (question : String) : QueryAction :=
  if isSummaryRequest question then
    match (sortDescBy Doc.file_name docstore).head? with
    | some _ => QueryAction.engineQuery summary_prompt
    | none => QueryAction.noEngine
  else QueryAction.engineQuery question

/-- Full `QueryEngine.query`: run the plan against the external engine
(`engine` maps a prompt to the raw model response) and post-process the
resulting text (query_engine.py, lines 45–78). -/
def queryRun (docstore : List Doc) (engine : String → String) (question : String) : String :=
  match queryPlan docstore question with
  | QueryAction.engineQuery p => process_response (engine p)
  | QueryAction.noEngine => process_response apology_text

/-- `true` iff the plan for `question` is the summary path (the fixed
summary prompt, or the no-document apology). -/
def routesToSummary (docstore : List Doc) (question : String) : Bool :=
  match queryPlan docstore question with
  | QueryAction.engineQuery p => p == summary_prompt
  | QueryAction.noEngine => true

/-- Which persisted artifacts exist at the persistence directory
(index_creator.py, lines 36–37). -/
structure PersistState where
  faiss_exists : Bool
  docstore_exists : Bool

/-- `create_index` (index_creator.py, lines 15–86) over an abstract
index type `Ix`.  The external library calls are parameters:
`loadStored` is the outcome of reading the persisted artifacts,
`buildNew` the outcome of building a fresh index from the documents, and
`persistRes` the outcome of writing the artifacts back.  If both
artifact files exist the load is attempted and any load error falls
through to the fresh build; a fresh build attempts persistence and
ignores its failure. -/
def create_index {Ix : Type} (documents : List Doc) (fs : PersistState)
    (loadStored : Except String Ix) (buildNew : List Doc → Except String Ix)
    (persistRes : Except String Unit) : Except String Ix :=
  let buildFresh : Except String Ix :=
    match buildNew documents with
    | Except.ok ix =>
      match persistRes with
      | Except.ok _ => Except.ok ix
      | Except.error _ => Except.ok ix
    | Except.error e => Except.error e
  if fs.faiss_exists && fs.docstore_exists then
    match loadStored with
    | Except.ok ix => Except.ok ix
    | Except.error _ => buildFresh
  else buildFresh

/-- The process-wide query-engine reference: wraps exactly one index. -/
structure EngineRef (Ix : Type) where
  index : Ix

/-- `initialize_rag_system` (main.py, lines 50–102) as a transition on
the shared `query_engine` reference.  `pdfs` is the glob of the data
directory, `loadRes` the outcome of `load_documents`, `buildRes` the
outcome of `create_index`, `ctorRes` the outcome of constructing the
query engine (`index.as_query_engine`).  Every failure path is caught
by the surrounding `try`/`except` and returns `False` with the prior
reference untouched; the model is a total function, mirroring that the
routine never raises. -/
def initialize_rag_system {Ix : Type} (prev : Option (EngineRef Ix))
    (pdfs : List String) (loadRes : Except String (List Doc))
    (buildRes : Except String Ix) (ctorRes : Except String Unit) :
    Option (EngineRef Ix) × Bool :=
  if pdfs.isEmpty then (prev, false)
  else
    match loadRes with
    | Except.error _ => (prev, false)
    | Except.ok docs =>
      if docs.isEmpty then (prev, false)
      else
        match buildRes with
        | Except.error _ => (prev, false)
        | Except.ok ix =>
          match ctorRes with
          | Except.error _ => (prev, false)
          | Except.ok _ => (some { index := ix }, true)

/-- Python `s.split('_')` (keeping empty pieces), used by the `/status/`
name display and by the timestamped-name convention. -/
def splitChar (c : Char) : List Char → List Char → List (List Char)
  | [], acc => [acc.reverse]
  | x :: xs, acc => if x = c then acc.reverse :: splitChar c xs [] else splitChar c xs (x :: acc)

/-- The original-name recovery of `/status/` (main.py, line 212):
`'_'.join(name.split('_')[2:])` when the name holds at least two
underscores (`count('_') >= 2` iff the split has at least 3 parts),
otherwise the name unchanged. -/
def strip_timestamp (name : String) : String :=
  let parts := splitChar '_' name.data []
  if 3 ≤ parts.length then String.mk (joinWith ['_'] (parts.drop 2)) else name

/-- Does the stripped original name of `f` equal `n`? -/
def matchesOriginal (n : String) (f : String) : Bool :=
  strip_timestamp f == n

/-- The delete step of `upload_documents` (main.py, lines 155–158): every
existing file whose name contains the uploaded original `filename` as a
substring (Python `filename in existing_file`) is removed. -/
def upload_cleanup (dataDir : List String) (filename : String) : List String :=
  dataDir.filter (fun f => !(occursIn filename.data f.data))

/-- One iteration of the upload loop (main.py, lines 144–164): delete
the matching files, then write `{timestamp}_{filename}`.  The directory
is modelled as the list of its filenames. -/
def upload_one (dataDir : List String) (timestamp filename : String) : List String :=
  upload_cleanup dataDir filename ++ [timestamp ++ "_" ++ filename]

/-- The fixed fallback of the `/query/` endpoint (main.py, line 121). -/
def fallback_message : String :=
  "I couldn't find specific information about that in the documents. Could you rephrase your question or be more specific?"

/-- The marker whose (case-insensitive) presence triggers the fallback
(main.py, line 118). -/
def context_marker : String :=
  "not provided in the context"

/-- The answer post-filter of the `/query/` endpoint (main.py,
lines 114–123), given the engine's answer while the system is
initialized: an empty answer, or one containing the marker
case-insensitively, is replaced by `fallback_message`; any other answer
is returned unchanged. -/
def query_documents (engineAnswer : String) : String :=
  if engineAnswer.data.isEmpty || occursIn context_marker.data (lowerList engineAnswer) then
    fallback_message
  else engineAnswer

/-- A character that triggers none of the post-processing rules: not
whitespace and not sentence punctuation. -/
def plainChar (c : Char) : Bool :=
  !c.isWhitespace && c != '.' && c != '!' && c != '?'

/-- Self-fixedness under whitespace collapsing: one reading of "free of
irregular spacing" (no doubled spaces, no stray whitespace). -/
def noIrregularSpacing (s : String) : Bool :=
  collapseWs s.data == s.data

/-- Descending order on names: the relation holding between successive
records of a most-recent-first listing. -/
def descStr (a b : String) : Prop := b ≤ a

/-- A concrete reader for witnesses: one text chunk per file. -/
def oneChunk (f : String) : List String := [f]

/-! ### Helper lemmas about the string primitives -/

theorem str_data_append (s t : String) : (s ++ t).data = s.data ++ t.data := rfl

theorem str_mk_data (s : String) : String.mk s.data = s := rfl

theorem wordsAux_nows : ∀ (l acc : List Char), (∀ c ∈ l, c.isWhitespace = false) →
    acc.reverse ++ l ≠ [] → wordsAux l acc = [acc.reverse ++ l]
  | [], acc, _, hne => by
    have hacc : acc ≠ [] := by
      intro h; apply hne; simp [h]
    simp [wordsAux, List.isEmpty_iff, hacc]
  | c :: cs, acc, h, _ => by
    have hc : c.isWhitespace = false := h c (by simp)
    have ih := wordsAux_nows cs (c :: acc) (fun x hx => h x (by simp [hx]))
      (by simp)
    simp [wordsAux, hc, ih]

theorem wordsAux_append : ∀ (l rest acc : List Char),
    (∀ c ∈ l, c.isWhitespace = false) →
    wordsAux (l ++ rest) acc = wordsAux rest (l.reverse ++ acc)
  | [], rest, acc, _ => by simp
  | c :: cs, rest, acc, h => by
    have hc : c.isWhitespace = false := h c (by simp)
    have ih := wordsAux_append cs rest (c :: acc) (fun x hx => h x (by simp [hx]))
    simp [wordsAux, hc, ih, List.append_assoc]

theorem joinWith_single (sep x : List Char) : joinWith sep [x] = x := rfl

theorem collapseWs_nows (l : List Char) (hne : l ≠ [])
    (h : ∀ c ∈ l, c.isWhitespace = false) : collapseWs l = l := by
  unfold collapseWs
  rw [wordsAux_nows l [] h (by simpa using hne)]
  simp [joinWith_single]

theorem collapseWs_trailing_space (l : List Char) (hne : l ≠ [])
    (h : ∀ c ∈ l, c.isWhitespace = false) : collapseWs (l ++ [' ']) = l := by
  unfold collapseWs
  rw [wordsAux_append l [' '] [] h]
  simp only [List.append_nil]
  have hl : l.reverse.isEmpty = false := by
    simp [List.isEmpty_iff, hne]
  have hws : (' ' : Char).isWhitespace = true := by decide
  simp [wordsAux, hws, hl, joinWith_single]

theorem replaceChar_not_mem (t : Char) (r : List Char) :
    ∀ l : List Char, t ∉ l → replaceChar t r l = l
  | [], _ => rfl
  | c :: cs, h => by
    have hc : ¬ c = t := by
      intro hct; exact h (by simp [hct])
    have ih := replaceChar_not_mem t r cs (fun hm => h (by simp [hm]))
    simp [replaceChar, hc, ih]

theorem replaceChar_append_of_not_mem (t : Char) (r : List Char) :
    ∀ (l m : List Char), t ∉ l → replaceChar t r (l ++ m) = l ++ replaceChar t r m
  | [], m, _ => rfl
  | c :: cs, m, h => by
    have hc : ¬ c = t := by
      intro hct; exact h (by simp [hct])
    have ih := replaceChar_append_of_not_mem t r cs m (fun hm => h (by simp [hm]))
    simp [replaceChar, hc, ih]

theorem splitDS_no_sep : ∀ (l acc : List Char), (∀ c ∈ l, c ≠ '.') →
    splitDS l acc = [acc.reverse ++ l]
  | [], acc, _ => by simp [splitDS]
  | [c], acc, _ => by simp [splitDS]
  | c :: c2 :: cs, acc, h => by
    have hc : ¬ (c = '.' ∧ c2 = ' ') := by
      rintro ⟨hc, -⟩; exact h c (by simp) hc
    have ih := splitDS_no_sep (c2 :: cs) (c :: acc) (fun x hx => h x (by simp [hx]))
    simp [splitDS, hc, ih]

theorem splitDS_end_dot : ∀ (l acc : List Char), (∀ c ∈ l, c ≠ '.') →
    splitDS (l ++ ['.']) acc = [acc.reverse ++ (l ++ ['.'])]
  | [], acc, _ => by simp [splitDS]
  | c :: l', acc, h => by
    have hc : c ≠ '.' := h c (by simp)
    cases l' with
    | nil => simp [splitDS, hc]
    | cons d l'' =>
      have ih := splitDS_end_dot (d :: l'') (c :: acc)
        (fun x hx => h x (by simp [hx]))
      have hcond : ¬ (c = '.' ∧ d = ' ') := by
        rintro ⟨hc', -⟩; exact hc hc'
      simp only [List.cons_append, splitDS, if_neg hcond]
      simpa using ih

theorem groupSentences_single (s : List Char) : groupSentences [s] [] = [s ++ ['.']] := rfl

theorem plainChar_spec (c : Char) (h : plainChar c = true) :
    c.isWhitespace = false ∧ c ≠ '.' ∧ c ≠ '!' ∧ c ≠ '?' := by
  unfold plainChar at h
  simp only [Bool.and_eq_true, bne_iff_ne, Bool.not_eq_true'] at h
  tauto

theorem processList_plain (l : List Char) (hne : l ≠ [])
    (h : ∀ c ∈ l, plainChar c = true) : processList l = l ++ ['.'] := by
  have hws : ∀ c ∈ l, c.isWhitespace = false := fun c hc => (plainChar_spec c (h c hc)).1
  have hdot : ('.' : Char) ∉ l := fun hm => (plainChar_spec _ (h _ hm)).2.1 rfl
  have hbang : ('!' : Char) ∉ l := fun hm => (plainChar_spec _ (h _ hm)).2.2.1 rfl
  have hq : ('?' : Char) ∉ l := fun hm => (plainChar_spec _ (h _ hm)).2.2.2 rfl
  simp only [processList]
  rw [collapseWs_nows l hne hws,
      replaceChar_not_mem '.' _ l hdot,
      replaceChar_not_mem '!' _ l hbang,
      replaceChar_not_mem '?' _ l hq,
      collapseWs_nows l hne hws,
      splitDS_no_sep l [] (fun c hc => (plainChar_spec c (h c hc)).2.1)]
  simp [groupSentences_single, joinWith_single]

theorem processList_plain_dot (l : List Char)
    (h : ∀ c ∈ l, plainChar c = true) :
    processList (l ++ ['.']) = l ++ ['.', '.'] := by
  have hws : ∀ c ∈ l ++ ['.'], c.isWhitespace = false := by
    intro c hc
    rcases List.mem_append.mp hc with hc | hc
    · exact (plainChar_spec c (h c hc)).1
    · simp only [List.mem_singleton] at hc
      subst hc; decide
  have hdot : ('.' : Char) ∉ l := fun hm => (plainChar_spec _ (h _ hm)).2.1 rfl
  have hbang : ('!' : Char) ∉ l ++ ['.', ' '] := by
    intro hm
    rcases List.mem_append.mp hm with hm | hm
    · exact (plainChar_spec _ (h _ hm)).2.2.1 rfl
    · simp at hm
  have hq : ('?' : Char) ∉ l ++ ['.', ' '] := by
    intro hm
    rcases List.mem_append.mp hm with hm | hm
    · exact (plainChar_spec _ (h _ hm)).2.2.2 rfl
    · simp at hm
  have hstep2 : replaceChar '.' ['.', ' '] (l ++ ['.']) = l ++ ['.', ' '] := by
    rw [replaceChar_append_of_not_mem '.' ['.', ' '] l ['.'] hdot]
    rfl
  have hstep5 : collapseWs (l ++ ['.', ' ']) = l ++ ['.'] := by
    have harr : l ++ ['.', ' '] = (l ++ ['.']) ++ [' '] := by simp
    rw [harr, collapseWs_trailing_space (l ++ ['.']) (by simp) hws]
  simp only [processList]
  rw [collapseWs_nows (l ++ ['.']) (by simp) hws,
      hstep2,
      replaceChar_not_mem '!' _ _ hbang,
      replaceChar_not_mem '?' _ _ hq,
      hstep5,
      splitDS_end_dot l [] (fun c hc => (plainChar_spec c (h c hc)).2.1)]
  simp only [List.reverse_nil, List.nil_append, groupSentences_single, joinWith_single]
  simp

theorem mem_insertDescBy {α : Type} (key : α → String) (x : α) :
    ∀ (l : List α) (a : α), a ∈ insertDescBy key x l ↔ a = x ∨ a ∈ l
  | [], a => by simp [insertDescBy]
  | y :: ys, a => by
    by_cases hle : key y ≤ key x
    · simp [insertDescBy, hle]
    · simp only [insertDescBy, if_neg hle, List.mem_cons, mem_insertDescBy key x ys a]
      tauto

theorem pairwise_insertDescBy {α : Type} (key : α → String) (x : α) :
    ∀ l : List α, l.Pairwise (fun a b => key b ≤ key a) →
      (insertDescBy key x l).Pairwise (fun a b => key b ≤ key a)
  | [], _ => by simp [insertDescBy]
  | y :: ys, hp => by
    rcases List.pairwise_cons.mp hp with ⟨hy, hys⟩
    by_cases hle : key y ≤ key x
    · simp only [insertDescBy, if_pos hle]
      refine List.pairwise_cons.mpr ⟨?_, hp⟩
      intro b hb
      rcases List.mem_cons.mp hb with rfl | hb
      · exact hle
      · exact le_trans (hy b hb) hle
    · simp only [insertDescBy, if_neg hle]
      refine List.pairwise_cons.mpr ⟨?_, pairwise_insertDescBy key x ys hys⟩
      intro b hb
      rcases (mem_insertDescBy key x ys b).mp hb with rfl | hb
      · exact le_of_not_le hle
      · exact hy b hb

theorem mem_sortDescBy {α : Type} (key : α → String) :
    ∀ (l : List α) (a : α), a ∈ sortDescBy key l ↔ a ∈ l
  | [], a => by simp [sortDescBy]
  | x :: xs, a => by
    simp [sortDescBy, mem_insertDescBy, mem_sortDescBy key xs a]

theorem pairwise_sortDescBy {α : Type} (key : α → String) :
    ∀ l : List α, (sortDescBy key l).Pairwise (fun a b => key b ≤ key a)
  | [] => by simp [sortDescBy]
  | x :: xs => pairwise_insertDescBy key x _ (pairwise_sortDescBy key xs)

theorem sortDescBy_head_max {α : Type} (key : α → String) (l : List α)
    (first : α) (rest : List α) (h : sortDescBy key l = first :: rest) :
    first ∈ l ∧ ∀ a ∈ l, key a ≤ key first := by
  constructor
  · have hmem : first ∈ sortDescBy key l := by rw [h]; simp
    exact (mem_sortDescBy key l first).mp hmem
  · intro a ha
    have hmem : a ∈ sortDescBy key l := (mem_sortDescBy key l a).mpr ha
    rw [h] at hmem
    rcases List.mem_cons.mp hmem with rfl | hmem
    · exact le_refl _
    · have hp := pairwise_sortDescBy key l
      rw [h] at hp
      exact (List.pairwise_cons.mp hp).1 a hmem

theorem mem_loadLoop (first : String) (reader : String → List String) :
    ∀ (L : List String) (r : Doc), r ∈ loadLoop first reader L →
      r.file_name ∈ L ∧ r.is_latest = (r.file_name == first)
  | [], r => by simp [loadLoop]
  | f :: fs, r => by
    intro hr
    simp only [loadLoop, List.mem_append, List.mem_map] at hr
    rcases hr with ⟨t, ht, rfl⟩ | hr
    · simp
    · have ih := mem_loadLoop first reader fs r hr
      exact ⟨by simp [ih.1], ih.2⟩

theorem pairwise_of_total {α : Type} (R : α → α → Prop) (h : ∀ a b, R a b) :
    ∀ l : List α, l.Pairwise R
  | [] => List.Pairwise.nil
  | x :: xs => List.Pairwise.cons (fun b _ => h x b) (pairwise_of_total R h xs)

theorem pairwise_loadLoop (first : String) (reader : String → List String) :
    ∀ L : List String, L.Pairwise (fun a b => b ≤ a) →
      ((loadLoop first reader L).map Doc.file_name).Pairwise (fun a b => b ≤ a)
  | [], _ => by simp [loadLoop]
  | f :: fs, hp => by
    rcases List.pairwise_cons.mp hp with ⟨hf, hfs⟩
    simp only [loadLoop, List.map_append]
    rw [List.pairwise_append]
    refine ⟨?_, pairwise_loadLoop first reader fs hfs, ?_⟩
    · rw [List.map_map, List.pairwise_map]
      exact pairwise_of_total _ (fun _ _ => le_refl f) (reader f)
    · intro a ha b hb
      rw [List.map_map] at ha
      rcases List.mem_map.mp ha with ⟨t, -, rfl⟩
      rcases List.mem_map.mp hb with ⟨r, hr, rfl⟩
      exact hf _ (mem_loadLoop first reader fs r hr).1

theorem leadsWith_refl : ∀ l : List Char, leadsWith l l = true
  | [] => rfl
  | c :: cs => by simp [leadsWith, leadsWith_refl cs]

theorem occursIn_self : ∀ l : List Char, occursIn l l = true
  | [] => rfl
  | c :: cs => by simp [occursIn, leadsWith_refl]

theorem occursIn_append_left (p : List Char) :
    ∀ (pre s : List Char), occursIn p s = true → occursIn p (pre ++ s) = true
  | [], _, h => h
  | c :: pre', s, h => by
    simp only [List.cons_append, occursIn, Bool.or_eq_true]
    exact Or.inr (occursIn_append_left p pre' s h)

theorem occursIn_suffix (p pre : List Char) : occursIn p (pre ++ p) = true :=
  occursIn_append_left p pre p (occursIn_self p)

theorem splitChar_ne_nil (c : Char) : ∀ (l acc : List Char), splitChar c l acc ≠ []
  | [], acc => by simp [splitChar]
  | x :: xs, acc => by
    by_cases hx : x = c
    · simp [splitChar, hx]
    · simp only [splitChar, if_neg hx]
      exact splitChar_ne_nil c xs (x :: acc)

theorem joinWith_splitChar (c : Char) : ∀ (l acc : List Char),
    joinWith [c] (splitChar c l acc) = acc.reverse ++ l
  | [], acc => by simp [splitChar, joinWith_single]
  | x :: xs, acc => by
    by_cases hx : x = c
    · subst hx
      simp only [splitChar, if_pos rfl]
      obtain ⟨s0, S', hS⟩ : ∃ s0 S', splitChar x xs [] = s0 :: S' := by
        cases h : splitChar x xs [] with
        | nil => exact absurd h (splitChar_ne_nil x xs [])
        | cons s0 S' => exact ⟨s0, S', rfl⟩
      have ih := joinWith_splitChar x xs []
      rw [hS] at ih ⊢
      simp only [joinWith]
      rw [ih]
      simp
    · simp only [splitChar, if_neg hx]
      rw [joinWith_splitChar c xs (x :: acc)]
      simp

theorem splitChar_append (c : Char) : ∀ (d rest acc : List Char), c ∉ d →
    splitChar c (d ++ c :: rest) acc = (acc.reverse ++ d) :: splitChar c rest []
  | [], rest, acc, _ => by simp [splitChar]
  | x :: d', rest, acc, h => by
    have hx : ¬ x = c := fun hxc => h (by simp [hxc])
    have ih := splitChar_append c d' rest (x :: acc) (fun hm => h (by simp [hm]))
    simp only [List.cons_append, splitChar, if_neg hx, List.append_eq]
    rw [ih]
    simp

theorem joinWith_drop_suffix (sep : List Char) :
    ∀ (L : List (List Char)) (k : Nat),
      ∃ pre, joinWith sep L = pre ++ joinWith sep (L.drop k)
  | _, 0 => ⟨[], by simp⟩
  | [], _ + 1 => ⟨[], by simp [joinWith]⟩
  | [x], _ + 1 => ⟨x, by simp [joinWith]⟩
  | x :: y :: rest, k + 1 => by
    obtain ⟨pre, hp⟩ := joinWith_drop_suffix sep (y :: rest) k
    exact ⟨x ++ sep ++ pre, by simp [joinWith, hp, List.append_assoc]⟩

theorem str_data_mk (l : List Char) : (String.mk l).data = l := rfl

theorem strip_timestamp_new (d t n : String) (hd : '_' ∉ d.data) (ht : '_' ∉ t.data) :
    strip_timestamp ((d ++ "_" ++ t) ++ "_" ++ n) = n := by
  have hdata : ((d ++ "_" ++ t) ++ "_" ++ n).data
      = d.data ++ '_' :: (t.data ++ '_' :: n.data) := by
    simp [str_data_append]
  unfold strip_timestamp
  rw [hdata, splitChar_append '_' d.data _ [] hd, splitChar_append '_' t.data _ [] ht]
  have hlen : 1 ≤ (splitChar '_' n.data []).length :=
    List.length_pos.mpr (splitChar_ne_nil '_' n.data [])
  have hcond : 3 ≤ (([].reverse ++ d.data) :: ([].reverse ++ t.data) :: splitChar '_' n.data []).length := by
    simp only [List.length_cons]
    omega
  rw [if_pos hcond]
  simp only [List.drop_succ_cons, List.drop_zero]
  rw [joinWith_splitChar '_' n.data []]
  rfl

theorem occursIn_strip (f : String) : occursIn (strip_timestamp f).data f.data = true := by
  unfold strip_timestamp
  by_cases hlen : 3 ≤ (splitChar '_' f.data []).length
  · rw [if_pos hlen]
    obtain ⟨pre, hp⟩ := joinWith_drop_suffix ['_'] (splitChar '_' f.data []) 2
    have hfull : joinWith ['_'] (splitChar '_' f.data []) = f.data := by
      rw [joinWith_splitChar '_' f.data []]
      simp
    rw [str_data_mk]
    have hdecomp : f.data = pre ++ joinWith ['_'] ((splitChar '_' f.data []).drop 2) :=
      hfull.symm.trans hp
    have hgoal := occursIn_suffix (joinWith ['_'] ((splitChar '_' f.data []).drop 2)) pre
    rw [← hdecomp] at hgoal
    exact hgoal
  · rw [if_neg hlen]
    exact occursIn_self f.data

/-! ### Claim theorems -/

/-- C1: the query operation routes a question to the summary path if and
only if its lowercase form contains one of the fixed keywords `summary`,
`summarize`, `what is this about`, `what is it about`; otherwise the
question is issued verbatim to the retrieval mechanism.  In particular a
question containing `summarize` in any letter case takes the summary
path, and `What is the termination clause?` takes the direct path. -/
theorem C1_routing (q : String) (docstore : List Doc) :
    (routesToSummary docstore q = isSummaryRequest q)
  ∧ (isSummaryRequest q = true ↔
      ∃ w ∈ summary_keywords, occursIn w.data (lowerList q) = true)
  ∧ (isSummaryRequest q = false → queryPlan docstore q = QueryAction.engineQuery q)
  ∧ (occursIn (("summarize" : String)).data (lowerList q) = true →
      routesToSummary docstore q = true)
  ∧ routesToSummary docstore ("What is the termination clause?") = false := by
  have hkey : isSummaryRequest summary_prompt = true := by decide
  have hmain : ∀ q' : String, routesToSummary docstore q' = isSummaryRequest q' := by
    intro q'
    by_cases hs : isSummaryRequest q' = true
    · rw [hs]
      unfold routesToSummary queryPlan
      rw [if_pos hs]
      cases (sortDescBy Doc.file_name docstore).head? with
      | some d => simp
      | none => simp
    · have hs' : isSummaryRequest q' = false := by
        cases h : isSummaryRequest q' with
        | true => exact absurd h hs
        | false => rfl
      rw [hs']
      unfold routesToSummary queryPlan
      rw [if_neg hs]
      have hne : q' ≠ summary_prompt := by
        intro he
        rw [he, hkey] at hs'
        cases hs'
      simp [hne]
  refine ⟨hmain q, ?_, ?_, ?_, ?_⟩
  · unfold isSummaryRequest
    exact List.any_eq_true
  · intro hs
    unfold queryPlan
    rw [if_neg (by rw [hs]; simp)]
  · intro hocc
    rw [hmain q]
    unfold isSummaryRequest
    refine List.any_eq_true.mpr ⟨("summarize" : String), ?_, hocc⟩
    unfold summary_keywords
    simp
  · rw [hmain ("What is the termination clause?")]
    decide

/-- Witness for C1: a question containing `SUMMARIZE` in upper case is
routed to the summary path. -/
theorem C1_witness :
    routesToSummary [] ("Can you SUMMARIZE the contract?") = true :=
  (C1_routing ("Can you SUMMARIZE the contract?") []).2.2.2.1 (by decide)

/-- C2: on the four-sentence input, post-processing yields exactly two
paragraphs joined by a blank line; the first holds sentences one to
three rejoined with `'. '` and a trailing `'.'`, the second holds the
fourth sentence unit (which retained its final period in the split) with
the trailing `'.'` appended. -/
theorem C2_formatting :
    process_response
        ("This is sentence one. This is sentence two. This is sentence three. This is sentence four.")
      = (("This is sentence one. This is sentence two. This is sentence three.")
          ++ "\n\n") ++ (("This is sentence four.") ++ ".") := by
  decide

/-- C3 counterexample: `process_response "Hello"` is `"Hello."` — free of
any irregular spacing — yet a second application yields `"Hello.."`, so
the transform is not idempotent even on such outputs. -/
theorem C3_counterexample :
    noIrregularSpacing (process_response ("Hello")) = true
  ∧ process_response (process_response ("Hello")) ≠ process_response ("Hello") := by
  constructor
  · decide
  · decide

/-- C3 amended: the post-processing transform is not idempotent; a second
application appends one more trailing period.  For every nonempty input
with no whitespace and no sentence punctuation, one application yields
`s ++ "."` and a second yields `s ++ ".."`, which differ. -/
theorem C3_not_idempotent (s : String) (hne : s.data ≠ [])
    (h : ∀ c ∈ s.data, plainChar c = true) :
    process_response s = s ++ "."
  ∧ process_response (process_response s) = s ++ ".."
  ∧ process_response (process_response s) ≠ process_response s := by
  have h1 : process_response s = s ++ "." := by
    unfold process_response
    rw [processList_plain s.data hne h]
    cases s
    rfl
  have h2 : process_response (process_response s) = s ++ ".." := by
    rw [h1]
    unfold process_response
    have hd : (s ++ ".").data = s.data ++ ['.'] := str_data_append s "."
    rw [hd, processList_plain_dot s.data h]
    cases s
    rfl
  refine ⟨h1, h2, ?_⟩
  rw [h2, h1]
  intro he
  have hdata : s.data ++ (".." : String).data = s.data ++ (("." : String)).data := by
    rw [← str_data_append, ← str_data_append, he]
  exact absurd (List.append_cancel_left hdata) (by decide)

/-- Witness for C3 amended, at the input `"Hello"`. -/
theorem C3_witness :
    (("Hello" : String)).data ≠ []
  ∧ process_response ("Hello") = ("Hello" : String) ++ "."
  ∧ process_response (process_response ("Hello")) = ("Hello" : String) ++ ".." :=
  ⟨by decide, (C3_not_idempotent ("Hello") (by decide) (by decide)).1,
    (C3_not_idempotent ("Hello") (by decide) (by decide)).2.1⟩

/-- C4: for a summary-routed question against an empty document store,
the query operation answers with the fixed (post-processed) apology and
never consults the underlying retrieval engine: the plan is `noEngine`
and the result does not depend on the engine at all. -/
theorem C4_empty_docstore (q : String) (h : isSummaryRequest q = true) :
    queryPlan [] q = QueryAction.noEngine
  ∧ (∀ engine : String → String, queryRun [] engine q = process_response apology_text)
  ∧ (∀ e1 e2 : String → String, queryRun [] e1 q = queryRun [] e2 q) := by
  have hplan : queryPlan [] q = QueryAction.noEngine := by
    unfold queryPlan
    rw [if_pos h]
    rfl
  refine ⟨hplan, ?_, ?_⟩
  · intro engine
    unfold queryRun
    rw [hplan]
  · intro e1 e2
    unfold queryRun
    rw [hplan]

/-- Witness for C4 at a concrete summary question. -/
theorem C4_witness :
    queryPlan [] ("Please give a summary of the document") = QueryAction.noEngine :=
  (C4_empty_docstore ("Please give a summary of the document") (by decide)).1

/-- C5 counterexample: uploading `a.pdf` into a directory holding only
`20240101_120000_data.pdf` — a file whose original name is `data.pdf`,
not `a.pdf` — deletes that file, because the code removes every file
whose name merely *contains* the uploaded name as a substring. -/
theorem C5_counterexample :
    upload_one ["20240101_120000_data.pdf"] ("20240102_000000") ("a.pdf")
      = ["20240102_000000_a.pdf"]
  ∧ strip_timestamp ("20240101_120000_data.pdf") = ("data.pdf")
  ∧ ("data.pdf" : String) ≠ ("a.pdf" : String)
  ∧ ("20240101_120000_data.pdf" : String)
      ∉ upload_one ["20240101_120000_data.pdf"] ("20240102_000000") ("a.pdf") := by
  refine ⟨by decide, by decide, by decide, by decide⟩

/-- C5 amended: the upload step deletes exactly the files whose names
contain the uploaded original name as a substring — a superset of the
files whose original name matches — before writing the timestamped
copy.  Files whose names do not contain the uploaded name survive, every
file whose original name matches is among the deleted (its original name
is a substring of its full name), and afterwards exactly one file with
that original name exists: the new timestamped copy. -/
theorem C5_upload (dataDir : List String) (d t filename : String)
    (hd : '_' ∉ d.data) (ht : '_' ∉ t.data) :
    (∀ f ∈ dataDir, occursIn filename.data f.data = false →
        f ∈ upload_one dataDir (d ++ "_" ++ t) filename)
  ∧ (∀ f ∈ upload_one dataDir (d ++ "_" ++ t) filename,
        f = (d ++ "_" ++ t) ++ "_" ++ filename
          ∨ (f ∈ dataDir ∧ occursIn filename.data f.data = false))
  ∧ (∀ f : String, strip_timestamp f = filename →
        occursIn filename.data f.data = true)
  ∧ (upload_one dataDir (d ++ "_" ++ t) filename).filter (matchesOriginal filename)
      = [(d ++ "_" ++ t) ++ "_" ++ filename] := by
  have hstrip : ∀ f : String, strip_timestamp f = filename →
      occursIn filename.data f.data = true := by
    intro f hf
    rw [← hf]
    exact occursIn_strip f
  refine ⟨?_, ?_, hstrip, ?_⟩
  · intro f hf hocc
    unfold upload_one upload_cleanup
    refine List.mem_append.mpr (Or.inl ?_)
    refine List.mem_filter.mpr ⟨hf, ?_⟩
    rw [hocc]
    rfl
  · intro f hf
    unfold upload_one upload_cleanup at hf
    rcases List.mem_append.mp hf with hf | hf
    · rcases List.mem_filter.mp hf with ⟨hmem, hpred⟩
      refine Or.inr ⟨hmem, ?_⟩
      cases hocc : occursIn filename.data f.data with
      | false => rfl
      | true => rw [hocc] at hpred; cases hpred
    · simp only [List.mem_singleton] at hf
      exact Or.inl hf
  · unfold upload_one
    rw [List.filter_append]
    have hsurv : (upload_cleanup dataDir filename).filter (matchesOriginal filename)
        = [] := by
      rw [List.filter_eq_nil_iff]
      intro f hf
      rcases List.mem_filter.mp hf with ⟨-, hpred⟩
      intro hmatch
      unfold matchesOriginal at hmatch
      have hfn : strip_timestamp f = filename := eq_of_beq hmatch
      rw [hstrip f hfn] at hpred
      simp at hpred
    have hnew : (matchesOriginal filename) ((d ++ "_" ++ t) ++ "_" ++ filename) = true := by
      unfold matchesOriginal
      rw [strip_timestamp_new d t filename hd ht]
      simp
    rw [hsurv]
    simp [List.filter, hnew]

/-- Witness for C5 amended at a concrete directory and upload. -/
theorem C5_witness :
    ('_' ∉ (("20240102" : String)).data)
  ∧ (upload_one ["20240101_120000_report.pdf", "note.txt"]
        (("20240102" : String) ++ "_" ++ ("090000")) ("report.pdf")).filter
        (matchesOriginal ("report.pdf"))
      = [(("20240102" : String) ++ "_" ++ ("090000")) ++ "_" ++ ("report.pdf")] :=
  ⟨by decide,
    (C5_upload ["20240101_120000_report.pdf", "note.txt"] ("20240102") ("090000")
      ("report.pdf") (by decide) (by decide)).2.2.2⟩

/-- C6: the loader returns its records ordered by descending source
filename, each record's `is_latest` is true exactly when its source file
has the lexicographically greatest name in the directory, each record's
`file_name` is one of the directory's files, and an empty directory
yields the empty sequence rather than an error. -/
theorem C6_loader (files : List String) (reader : String → List String) :
    ((load_documents files reader).map Doc.file_name).Pairwise descStr
  ∧ (∀ r ∈ load_documents files reader,
        r.file_name ∈ files ∧ (r.is_latest = true ↔ ∀ g ∈ files, g ≤ r.file_name))
  ∧ (files = [] → load_documents files reader = []) := by
  refine ⟨?_, ?_, ?_⟩
  · cases h : sortDesc files with
    | nil =>
      have hload : load_documents files reader = [] := by
        unfold load_documents
        rw [h]
      rw [hload]
      simp
    | cons first rest =>
      have hload : load_documents files reader = loadLoop first reader (first :: rest) := by
        unfold load_documents
        rw [h]
      rw [hload]
      have hp : (first :: rest).Pairwise (fun a b => b ≤ a) := by
        rw [← h]
        exact pairwise_sortDescBy id files
      exact pairwise_loadLoop first reader (first :: rest) hp
  · intro r hr
    cases h : sortDesc files with
    | nil =>
      have hload : load_documents files reader = [] := by
        unfold load_documents
        rw [h]
      rw [hload] at hr
      simp at hr
    | cons first rest =>
      have hload : load_documents files reader = loadLoop first reader (first :: rest) := by
        unfold load_documents
        rw [h]
      rw [hload] at hr
      obtain ⟨hmem, hlat⟩ := mem_loadLoop first reader (first :: rest) r hr
      have hmax := sortDescBy_head_max id files first rest h
      have hrf : r.file_name ∈ files := by
        have hm2 : r.file_name ∈ sortDesc files := by rw [h]; exact hmem
        exact (mem_sortDescBy id files r.file_name).mp hm2
      refine ⟨hrf, ?_⟩
      rw [hlat]
      constructor
      · intro hbeq g hg
        have heq : r.file_name = first := eq_of_beq hbeq
        rw [heq]
        exact hmax.2 g hg
      · intro hall
        have h1 : first ≤ r.file_name := hall first hmax.1
        have h2 : r.file_name ≤ first := hmax.2 r.file_name hrf
        rw [le_antisymm h2 h1]
        simp
  · intro hf
    subst hf
    rfl

/-- Witness for C6: the descending-order conjunct at a two-file
directory with one chunk per file. -/
theorem C6_witness :
    ((load_documents ["a.pdf", "b.pdf"] oneChunk).map Doc.file_name).Pairwise descStr :=
  (C6_loader ["a.pdf", "b.pdf"] oneChunk).1

/-- C7: when both persisted artifact files exist but loading them fails
with any error, `create_index` falls through to building a fresh index
from the supplied documents and returns it; the load error is not
propagated. -/
theorem C7_load_fallback {Ix : Type} (documents : List Doc) (fs : PersistState)
    (loadStored : Except String Ix) (buildNew : List Doc → Except String Ix)
    (persistRes : Except String Unit) (err : String) (ix : Ix)
    (hfa : fs.faiss_exists = true) (hds : fs.docstore_exists = true)
    (hl : loadStored = Except.error err) (hb : buildNew documents = Except.ok ix) :
    create_index documents fs loadStored buildNew persistRes = Except.ok ix := by
  unfold create_index
  rw [hfa, hds, hl, hb]
  cases persistRes with
  | ok u => rfl
  | error e => rfl

/-- Witness for C7: a corrupt load (`error`) with a successful rebuild
over the `Nat` index model. -/
theorem C7_witness :
    create_index [] { faiss_exists := true, docstore_exists := true }
      (Except.error ("corrupt artifacts")) (fun _ => Except.ok 5)
      (Except.ok ()) = Except.ok 5 :=
  @C7_load_fallback Nat [] { faiss_exists := true, docstore_exists := true }
    (Except.error ("corrupt artifacts")) (fun _ => Except.ok 5) (Except.ok ())
    ("corrupt artifacts") 5 rfl rfl rfl rfl

/-- C8: `initialize_rag_system` is atomic with respect to failure — it
returns `true` only when the build succeeded, in which case the shared
reference now wraps the freshly built index, and whenever it returns
`false` (no PDFs, load error, empty load, build error, or engine
construction error) the prior reference is returned unchanged.  The
model is a total function: the routine reports failure by value and
never raises. -/
theorem C8_atomic_reinit {Ix : Type} (prev : Option (EngineRef Ix)) (pdfs : List String)
    (loadRes : Except String (List Doc)) (buildRes : Except String Ix)
    (ctorRes : Except String Unit) :
    ((initialize_rag_system prev pdfs loadRes buildRes ctorRes).2 = true →
        ∃ ix, buildRes = Except.ok ix
          ∧ (initialize_rag_system prev pdfs loadRes buildRes ctorRes).1
              = some { index := ix })
  ∧ ((initialize_rag_system prev pdfs loadRes buildRes ctorRes).2 = false →
        (initialize_rag_system prev pdfs loadRes buildRes ctorRes).1 = prev) := by
  unfold initialize_rag_system
  cases hp : pdfs.isEmpty with
  | true => simp
  | false =>
    cases loadRes with
    | error e => simp
    | ok docs =>
      cases hd : docs.isEmpty with
      | true => simp [hd]
      | false =>
        cases buildRes with
        | error e => simp [hd]
        | ok ix =>
          cases ctorRes with
          | error e => simp [hd]
          | ok u =>
            refine ⟨fun _ => ⟨ix, rfl, ?_⟩, fun hfalse => ?_⟩
            · simp [hd]
            · simp [hd] at hfalse

/-- Witness for C8: a failed reinitialization (loader returned no
documents) leaves the prior engine reference in place. -/
theorem C8_witness :
    (initialize_rag_system (some { index := 7 }) ["a.pdf"]
        (Except.ok []) (Except.ok (9 : Nat)) (Except.ok ())).1
      = some { index := 7 } :=
  (@C8_atomic_reinit Nat (some { index := 7 }) ["a.pdf"]
    (Except.ok []) (Except.ok 9) (Except.ok ())).2 rfl

/-- C9: when the in-memory build succeeds on the fresh-build path (no
usable persisted artifacts, or a failed load), a failure while writing
the artifacts to disk is swallowed: `create_index` still returns the
in-memory index. -/
theorem C9_persist_swallow {Ix : Type} (documents : List Doc) (fs : PersistState)
    (loadStored : Except String Ix) (buildNew : List Doc → Except String Ix)
    (perr : String) (ix : Ix)
    (hb : buildNew documents = Except.ok ix)
    (hfresh : (fs.faiss_exists && fs.docstore_exists) = false
      ∨ ∃ e, loadStored = Except.error e) :
    create_index documents fs loadStored buildNew (Except.error perr) = Except.ok ix := by
  unfold create_index
  rw [hb]
  rcases hfresh with h | ⟨e, he⟩
  · rw [h]
    rfl
  · rw [he]
    cases hc : fs.faiss_exists && fs.docstore_exists with
    | true => rfl
    | false => rfl

/-- Witness for C9: a successful build whose persistence step fails
still returns the index, over the `Nat` index model. -/
theorem C9_witness :
    create_index [] { faiss_exists := false, docstore_exists := false }
      (Except.ok 3) (fun _ => Except.ok 4)
      (Except.error ("disk full")) = Except.ok 4 :=
  @C9_persist_swallow Nat [] { faiss_exists := false, docstore_exists := false }
    (Except.ok 3) (fun _ => Except.ok 4) ("disk full") 4 rfl (Or.inl rfl)

/-- C10: while the system is initialized, the `/query/` endpoint replaces
an empty engine answer, or one containing `not provided in the context`
case-insensitively, by the fixed fallback message, and returns any other
answer unchanged. -/
theorem C10_fallback (a : String) :
    ((a.data = [] ∨ occursIn context_marker.data (lowerList a) = true) →
        query_documents a = fallback_message)
  ∧ (a.data ≠ [] → occursIn context_marker.data (lowerList a) = false →
        query_documents a = a) := by
  constructor
  · intro h
    unfold query_documents
    have hc : (a.data.isEmpty || occursIn context_marker.data (lowerList a)) = true := by
      rcases h with h | h
      · simp [List.isEmpty_iff, h]
      · simp [h]
    rw [if_pos hc]
  · intro h1 h2
    unfold query_documents
    have hc : (a.data.isEmpty || occursIn context_marker.data (lowerList a)) = false := by
      simp [List.isEmpty_iff, h1, h2]
    rw [if_neg (by rw [hc]; simp)]

/-- Witness for C10: an empty engine answer yields the fallback. -/
theorem C10_witness : query_documents ("") = fallback_message :=
  (C10_fallback ("")).1 (Or.inl rfl)
